import Mathlib

/-!
Shallow embedding of the climb-detection core of the tdf-profile-generator
repository (`detectClimbs`, `smoothElevationForClimbDetection`,
`categorizeClimb`, `generateClimbName`, `mergeNearbyClimbs`).  The source's
IEEE doubles are modelled by rationals; the source's array indexing (always
in bounds where it occurs) is modelled by `List.getD` with a zero default.
-/

namespace TdfProfile

/-- An elevation sample: cumulative `distance` in km, `elevation` in metres. -/
structure Point where
  distance : ℚ
  elevation : ℚ
deriving DecidableEq, Repr

/-- The climb difficulty tiers `"HC" | "1" | "2" | "3" | "4"`. -/
inductive Category where
  | hc | cat1 | cat2 | cat3 | cat4
deriving DecidableEq, Repr

/-- The `ClimbSegment` interface of the source. -/
structure ClimbSegment where
  startDistance : ℚ
  endDistance : ℚ
  startElevation : ℚ
  endElevation : ℚ
  length : ℚ
  elevationGain : ℚ
  averageGradient : ℚ
  score : ℚ
  category : Option Category
  peakDistance : ℚ
  peakElevation : ℚ
  name : String
deriving DecidableEq, Repr

/-- Minimum 500 m climb (`0.5` km in the source). -/
def minClimbLength : ℚ := 1/2

/-- Minimum 30 m elevation gain. -/
def minElevationGain : ℚ := 30

/-- Minimum 3 % average gradient to be considered a climb. -/
def gradientThreshold : ℚ := 3

/-- 2 km minimum between climbs. -/
def minDistanceBetweenClimbs : ℚ := 2

/-- `points[i]`: list indexing with a default the source never hits. -/
def getP (pts : List Point) (i : Nat) : Point := pts.getD i ⟨0, 0⟩

/-- `categorizeClimb` from the source, verbatim. -/
def categorizeClimb (score : ℚ) : Option Category :=
  if 600 ≤ score then some Category.hc
  else if 300 ≤ score then some Category.cat1
  else if 150 ≤ score then some Category.cat2
  else if 75 ≤ score then some Category.cat3
  else if 0 < score then some Category.cat4
  else none

/-- JavaScript `Math.round` (round half toward positive infinity). -/
def jsRound (x : ℚ) : ℤ := ⌊x + 1/2⌋

/-- `generateClimbName` from the source. -/
def generateClimbName (elevation length gradient : ℚ) : String :=
  let nameType :=
    if 1500 < elevation then "Col"
    else if 1000 < elevation then "Mont"
    else if 10 < gradient then "Montée"
    else if 10 < length then "Col"
    else "Côte"
  let elevationSuffix := jsRound (elevation / 100) * 100
  nameType ++ " " ++ toString elevationSuffix ++ "m"

/-- The smoothing window radius of the source. -/
def windowSize : Nat := 3

/-- The inner summation loop of the smoother: the sum of the
`2*windowSize+1` elevations centred on index `i`. -/
def windowSum (points : List Point) (i : Nat) : ℚ :=
  ((List.range (2 * windowSize + 1)).map
    fun k => (getP points (i - windowSize + k)).elevation).sum

/-- `smoothElevationForClimbDetection` from the source: interior points get
the mean of the 7 centred elevations, boundary points are copied. -/
def smoothElevationForClimbDetection (points : List Point) : List Point :=
  if points.length < 5 then points
  else
    (List.range points.length).map fun i =>
      if windowSize ≤ i ∧ i + windowSize < points.length then
        ⟨(getP points i).distance, windowSum points i / 7⟩
      else getP points i

/-- The per-pair gradient of the segmenter's scan at index `i ≥ 1`:
`(elevation[i]-elevation[i-1]) / ((distance[i]-distance[i-1])*1000) * 100`,
and `0` when the distance delta is not positive. -/
def pairGradient (pts : List Point) (i : Nat) : ℚ :=
  let point := getP pts i
  let prevPoint := getP pts (i - 1)
  let elevationChange := point.elevation - prevPoint.elevation
  let distance := point.distance - prevPoint.distance
  if 0 < distance then elevationChange / (distance * 1000) * 100 else 0

/-- The peak look-ahead loop of the source
(`for j = i; j < min(i+20, n); j++`), carrying the running maximum.  The
`fuel` argument only drives the structural recursion; every call supplies
at least `stop - j` of it, and the `j < stop` guard is the loop condition. -/
def peakLoop (pts : List Point) (stop : Nat) :
    Nat → Nat → ℚ → ℚ → ℚ × ℚ
  | 0, _, peakDistance, peakElevation => (peakDistance, peakElevation)
  | fuel + 1, j, peakDistance, peakElevation =>
    if j < stop then
      let p := getP pts j
      if peakElevation < p.elevation then
        peakLoop pts stop fuel (j + 1) p.distance p.elevation
      else if p.elevation < peakElevation - 10 then
        (peakDistance, peakElevation)
      else
        peakLoop pts stop fuel (j + 1) peakDistance peakElevation
    else (peakDistance, peakElevation)

/-- Peak refinement of a climb closed at index `i`: the look-ahead loop over
indices `i ≤ j < min (i+20) pts.length`, started at the closing point.
The loop runs at most 20 iterations, so fuel 20 is enough. -/
def refinePeak (pts : List Point) (i : Nat)
    (climbEnd climbEndElevation : ℚ) : ℚ × ℚ :=
  peakLoop pts (min (i + 20) pts.length) 20 i climbEnd climbEndElevation

/-- The body of the climb-emission branch of `detectClimbs` when a climb is
closed at index `i` with the recorded start data: `some` segment when the
candidate passes the length/gain and average-gradient gates, else `none`. -/
def closeSegment (pts : List Point) (i : Nat)
    (climbStart climbStartElevation : ℚ) : Option ClimbSegment :=
  let point := getP pts i
  let climbEnd := point.distance
  let climbEndElevation := point.elevation
  let climbLength := climbEnd - climbStart
  let elevationGain := climbEndElevation - climbStartElevation
  if minClimbLength ≤ climbLength ∧ minElevationGain ≤ elevationGain then
    let averageGradient := elevationGain / (climbLength * 1000) * 100
    if gradientThreshold ≤ averageGradient then
      let pk := refinePeak pts i climbEnd climbEndElevation
      let score := climbLength * (averageGradient * averageGradient)
      some { startDistance := climbStart
             endDistance := climbEnd
             startElevation := climbStartElevation
             endElevation := climbEndElevation
             length := climbLength
             elevationGain := elevationGain
             averageGradient := averageGradient
             score := score
             category := categorizeClimb score
             peakDistance := pk.1
             peakElevation := pk.2
             name := generateClimbName pk.2 climbLength averageGradient }
    else none
  else none

/-- The mutable loop state of `detectClimbs`. -/
structure DetectState where
  climbs : List ClimbSegment
  climbStart : Option ℚ
  climbStartElevation : Option ℚ
  isClimbing : Bool
deriving DecidableEq, Repr

/-- One iteration of the main scan of `detectClimbs` at index `i`.  The
source also maintains a `currentElevation` variable, but it is written and
never read, so it is not part of the state here. -/
def detectStep (pts : List Point) (i : Nat) (st : DetectState) : DetectState :=
  let gradient := pairGradient pts i
  if st.isClimbing = false ∧ gradientThreshold < gradient then
    { st with climbStart := some (getP pts (i - 1)).distance
              climbStartElevation := some (getP pts (i - 1)).elevation
              isClimbing := true }
  else if st.isClimbing = true ∧
      (gradient < gradientThreshold ∨ i = pts.length - 1) then
    { climbs :=
        st.climbs ++
          (match st.climbStart, st.climbStartElevation with
           | some cs, some cse => (closeSegment pts i cs cse).toList
           | _, _ => [])
      climbStart := none
      climbStartElevation := none
      isClimbing := false }
  else st

/-- The main scan of `detectClimbs`, iterating `detectStep` from index `i`
up to the end of the point list and returning the accumulated climbs.  The
`fuel` argument only drives the structural recursion; every call supplies
at least `pts.length - i` of it, and `i < pts.length` is the loop
condition. -/
def detectLoop (pts : List Point) : Nat → Nat → DetectState → List ClimbSegment
  | 0, _, st => st.climbs
  | fuel + 1, i, st =>
    if i < pts.length then
      detectLoop pts fuel (i + 1) (detectStep pts i st)
    else st.climbs

/-- The accumulator loop of `mergeNearbyClimbs`; `acc` is the `merged`
array of the source in reverse order, so the source's `merged[length-1]`
is `acc`'s head. -/
def mergeLoop (acc rest : List ClimbSegment) : List ClimbSegment :=
  match rest with
  | [] => acc.reverse
  | currentClimb :: rest' =>
    match acc with
    | [] => mergeLoop [currentClimb] rest'
    | lastClimb :: accTail =>
      if currentClimb.startDistance - lastClimb.endDistance <
          minDistanceBetweenClimbs then
        if lastClimb.score < currentClimb.score then
          mergeLoop (currentClimb :: accTail) rest'
        else
          mergeLoop acc rest'
      else
        mergeLoop (currentClimb :: acc) rest'

/-- `mergeNearbyClimbs` from the source. -/
def mergeNearbyClimbs (climbs : List ClimbSegment) : List ClimbSegment :=
  if climbs.length ≤ 1 then climbs
  else mergeLoop [] climbs

/-- `detectClimbs` from the source: guard, smoothing, main scan from index
1 with the initial state, then the merge pass. -/
def detectClimbs (elevationPoints : List Point) : List ClimbSegment :=
  if elevationPoints.length < 10 then []
  else
    let smoothedPoints := smoothElevationForClimbDetection elevationPoints
    mergeNearbyClimbs
      (detectLoop smoothedPoints smoothedPoints.length 1 ⟨[], none, none, false⟩)

/-- Non-decreasing cumulative distances (the input-validity condition of the
spec), stated over indices so that it is decidable on concrete inputs. -/
def DistMono (pts : List Point) : Prop :=
  ∀ i ∈ List.range pts.length, ∀ j ∈ List.range pts.length,
    i ≤ j → (getP pts i).distance ≤ (getP pts j).distance

/-- No scan pair exceeds the gradient threshold. -/
def NoSteep (pts : List Point) : Prop :=
  ∀ i ∈ List.range pts.length, 1 ≤ i → pairGradient pts i ≤ gradientThreshold

/-- Candidates ordered by non-decreasing `startDistance`. -/
def SortedByStart (climbs : List ClimbSegment) : Prop :=
  List.Pairwise (fun a b => a.startDistance ≤ b.startDistance) climbs

instance (pts : List Point) : Decidable (DistMono pts) :=
  inferInstanceAs (Decidable (∀ i ∈ List.range pts.length,
    ∀ j ∈ List.range pts.length,
      i ≤ j → (getP pts i).distance ≤ (getP pts j).distance))

instance (pts : List Point) : Decidable (NoSteep pts) :=
  inferInstanceAs (Decidable (∀ i ∈ List.range pts.length,
    1 ≤ i → pairGradient pts i ≤ gradientThreshold))

instance (climbs : List ClimbSegment) : Decidable (SortedByStart climbs) :=
  inferInstanceAs (Decidable (List.Pairwise _ climbs))

/-- Modelled from the spec's description of the merger: one fold step
against the accumulator, touching only the last kept segment. -/
def mergeStepSpec (acc : List ClimbSegment) (c : ClimbSegment) :
    List ClimbSegment :=
  match acc.getLast? with
  | none => acc ++ [c]
  | some lastClimb =>
    if minDistanceBetweenClimbs ≤ c.startDistance - lastClimb.endDistance then
      acc ++ [c]
    else if lastClimb.score < c.score then
      acc.dropLast ++ [c]
    else acc

/-- Modelled from the spec's description of the merger: a left-to-right
fold of `mergeStepSpec` over the candidates. -/
def mergeSpec (climbs : List ClimbSegment) : List ClimbSegment :=
  climbs.foldl mergeStepSpec []

/-- Modelled from the spec's description of peak refinement: walk a window
of points in order, tracking the running maximum elevation and its
distance, stopping as soon as a point drops more than 10 m below the
running maximum. -/
def peakScanSpec : List Point → ℚ × ℚ → ℚ × ℚ
  | [], s => s
  | p :: ps, (pd, pe) =>
    if pe < p.elevation then peakScanSpec ps (p.distance, p.elevation)
    else if p.elevation < pe - 10 then (pd, pe)
    else peakScanSpec ps (pd, pe)

/-- The distance bound dominating every accumulated climb's end: the
recorded climb start when a climb is open, else the previous point's
distance. -/
def stBound (pts : List Point) (i : Nat) (st : DetectState) : ℚ :=
  st.climbStart.getD (getP pts (i - 1)).distance

/-- The ordering invariant of the main scan at index `i`: accumulated
climbs are chained end-before-start, all end before `stBound`, a recorded
climb start is at most the previous point's distance, and no climb start
is recorded while idle. -/
def OrdInv (pts : List Point) (i : Nat) (st : DetectState) : Prop :=
  List.Chain' (fun a b => a.endDistance ≤ b.startDistance) st.climbs ∧
  (∀ c ∈ st.climbs, c.endDistance ≤ stBound pts i st) ∧
  (∀ cs, st.climbStart = some cs → cs ≤ (getP pts (i - 1)).distance) ∧
  (st.isClimbing = false → st.climbStart = none)

/-- A concrete 8-sample input for the smoother witnesses. -/
def smoothWitnessInput : List Point :=
  [⟨0, 10⟩, ⟨1, 24⟩, ⟨2, 3⟩, ⟨3, 100⟩, ⟨4, 7⟩, ⟨5, 0⟩, ⟨6, 70⟩, ⟨7, 70⟩]

/-- A concrete flat 20 km track (11 samples, constant elevation). -/
def flatTrack : List Point :=
  [⟨0, 100⟩, ⟨2, 100⟩, ⟨4, 100⟩, ⟨6, 100⟩, ⟨8, 100⟩, ⟨10, 100⟩,
   ⟨12, 100⟩, ⟨14, 100⟩, ⟨16, 100⟩, ⟨18, 100⟩, ⟨20, 100⟩]

/-- A concrete single-climb track: 11 samples every 0.5 km rising 50 m per
step (10 percent grade, 5 km, 500 m of gain). -/
def climbTrack : List Point :=
  [⟨0, 0⟩, ⟨1/2, 25⟩, ⟨1, 50⟩, ⟨3/2, 75⟩, ⟨2, 100⟩, ⟨5/2, 125⟩,
   ⟨3, 150⟩, ⟨7/2, 175⟩, ⟨4, 200⟩, ⟨9/2, 225⟩, ⟨5, 250⟩]

/-- A concrete climb segment used by the merger witnesses. -/
def segA : ClimbSegment :=
  ⟨0, 1, 0, 50, 1, 50, 5, 25, some Category.cat4, 1, 50, "Côte 100m"⟩

/-- A second concrete climb segment, 4 km after `segA`. -/
def segB : ClimbSegment :=
  ⟨5, 6, 0, 50, 1, 50, 5, 25, some Category.cat4, 6, 50, "Côte 100m"⟩

/-! ## Basic indexing and smoothing lemmas -/

theorem getP_eq_getElem {pts : List Point} {i : Nat} (h : i < pts.length) :
    getP pts i = pts[i] := by
  simp [getP, List.getD_eq_getElem?_getD, List.getElem?_eq_getElem h]

theorem getP_out {pts : List Point} {i : Nat} (h : pts.length ≤ i) :
    getP pts i = ⟨0, 0⟩ := by
  simp [getP, List.getD_eq_getElem?_getD, List.getElem?_eq_none h]

theorem getP_mem {pts : List Point} {i : Nat} (h : i < pts.length) :
    getP pts i ∈ pts := by
  rw [getP_eq_getElem h]
  exact List.getElem_mem h

theorem smooth_length (points : List Point) :
    (smoothElevationForClimbDetection points).length = points.length := by
  unfold smoothElevationForClimbDetection
  split
  · rfl
  · simp

theorem getP_smooth (points : List Point) {i : Nat} (h : i < points.length) :
    getP (smoothElevationForClimbDetection points) i =
      if windowSize ≤ i ∧ i + windowSize < points.length then
        ⟨(getP points i).distance, windowSum points i / 7⟩
      else getP points i := by
  unfold smoothElevationForClimbDetection
  split
  · rename_i h5
    rw [if_neg]
    intro hcon
    have h1 := hcon.1
    have h2 := hcon.2
    simp only [windowSize] at h1 h2
    omega
  · rw [getP, List.getD_eq_getElem?_getD, List.getElem?_map,
      List.getElem?_range h]
    rfl

theorem smooth_distance (points : List Point) (i : Nat) :
    (getP (smoothElevationForClimbDetection points) i).distance =
      (getP points i).distance := by
  by_cases h : i < points.length
  · rw [getP_smooth points h]
    split <;> rfl
  · rw [getP_out (le_of_not_lt h),
      getP_out (by rw [smooth_length]; exact le_of_not_lt h)]

theorem distMono_le {pts : List Point} (hm : DistMono pts) {a b : Nat}
    (hab : a ≤ b) (hb : b < pts.length) :
    (getP pts a).distance ≤ (getP pts b).distance :=
  hm a (List.mem_range.2 (lt_of_le_of_lt hab hb)) b (List.mem_range.2 hb) hab

theorem distMono_smooth {pts : List Point} (hm : DistMono pts) :
    DistMono (smoothElevationForClimbDetection pts) := by
  intro i hi j hj hij
  rw [smooth_distance, smooth_distance]
  rw [List.mem_range, smooth_length] at hi hj
  exact distMono_le hm hij hj

/-- C8: fewer than 10 samples makes `detectClimbs` return the empty list
immediately (no error is possible: the function is total). -/
theorem detectClimbs_short_input (pts : List Point) (h : pts.length < 10) :
    detectClimbs pts = [] := by
  unfold detectClimbs
  rw [if_pos h]

/-- Witness for `detectClimbs_short_input` at a one-point input. -/
theorem detectClimbs_short_input_witness :
    ([⟨0, 0⟩] : List Point).length < 10 ∧
      detectClimbs [⟨0, 0⟩] = [] :=
  ⟨by norm_num, detectClimbs_short_input _ (by norm_num)⟩

/-- C7: the smoother keeps the length, returns inputs of fewer than 5
samples unchanged, keeps every distance, replaces each interior elevation
(more than `windowSize` samples from either end) by the mean of the 7
centred elevations, and passes boundary points through unchanged. -/
theorem smoothElevation_pointwise (points : List Point) (i : Nat)
    (h : i < points.length) :
    (smoothElevationForClimbDetection points).length = points.length ∧
    (points.length < 5 → smoothElevationForClimbDetection points = points) ∧
    (getP (smoothElevationForClimbDetection points) i).distance =
      (getP points i).distance ∧
    (windowSize ≤ i → i + windowSize < points.length →
      (getP (smoothElevationForClimbDetection points) i).elevation =
        windowSum points i / 7) ∧
    (i < windowSize ∨ points.length ≤ i + windowSize →
      getP (smoothElevationForClimbDetection points) i = getP points i) := by
  refine ⟨smooth_length points, ?_, smooth_distance points i, ?_, ?_⟩
  · intro h5
    unfold smoothElevationForClimbDetection
    rw [if_pos h5]
  · intro h1 h2
    rw [getP_smooth points h, if_pos ⟨h1, h2⟩]
  · intro hb
    rw [getP_smooth points h, if_neg]
    intro hcon
    rcases hb with hb | hb
    · exact absurd hcon.1 (by omega)
    · exact absurd hcon.2 (by omega)

/-- Witness for `smoothElevation_pointwise` at index 3 of a concrete
8-sample input (index 3 is interior there). -/
theorem smoothElevation_pointwise_witness :
    3 < smoothWitnessInput.length ∧
    ((smoothElevationForClimbDetection smoothWitnessInput).length =
        smoothWitnessInput.length ∧
      (smoothWitnessInput.length < 5 →
        smoothElevationForClimbDetection smoothWitnessInput =
          smoothWitnessInput) ∧
      (getP (smoothElevationForClimbDetection smoothWitnessInput) 3).distance =
        (getP smoothWitnessInput 3).distance ∧
      (windowSize ≤ 3 → 3 + windowSize < smoothWitnessInput.length →
        (getP (smoothElevationForClimbDetection smoothWitnessInput)
            3).elevation = windowSum smoothWitnessInput 3 / 7) ∧
      (3 < windowSize ∨ smoothWitnessInput.length ≤ 3 + windowSize →
        getP (smoothElevationForClimbDetection smoothWitnessInput) 3 =
          getP smoothWitnessInput 3)) :=
  ⟨by norm_num [smoothWitnessInput],
    smoothElevation_pointwise smoothWitnessInput 3
      (by norm_num [smoothWitnessInput])⟩

/-! ## Merge lemmas -/

theorem mergeLoop_subset :
    ∀ rest acc, ∀ c ∈ mergeLoop acc rest, c ∈ acc ∨ c ∈ rest := by
  intro rest
  induction rest with
  | nil =>
    intro acc c hc
    simp only [mergeLoop, List.mem_reverse] at hc
    exact Or.inl hc
  | cons cur rest' ih =>
    intro acc c hc
    cases acc with
    | nil =>
      simp only [mergeLoop] at hc
      rcases ih _ c hc with h | h
      · rcases List.mem_singleton.1 h with rfl
        exact Or.inr (List.mem_cons_self ..)
      · exact Or.inr (List.mem_cons_of_mem _ h)
    | cons lastC accTail =>
      simp only [mergeLoop] at hc
      split at hc
      · split at hc
        · rcases ih _ c hc with h | h
          · rcases List.mem_cons.1 h with rfl | h
            · exact Or.inr (List.mem_cons_self ..)
            · exact Or.inl (List.mem_cons_of_mem _ h)
          · exact Or.inr (List.mem_cons_of_mem _ h)
        · rcases ih _ c hc with h | h
          · exact Or.inl h
          · exact Or.inr (List.mem_cons_of_mem _ h)
      · rcases ih _ c hc with h | h
        · rcases List.mem_cons.1 h with rfl | h
          · exact Or.inr (List.mem_cons_self ..)
          · exact Or.inl h
        · exact Or.inr (List.mem_cons_of_mem _ h)

theorem mergeNearbyClimbs_subset (l : List ClimbSegment) :
    ∀ c ∈ mergeNearbyClimbs l, c ∈ l := by
  intro c hc
  unfold mergeNearbyClimbs at hc
  split at hc
  · exact hc
  · rcases mergeLoop_subset l [] c hc with h | h
    · exact absurd h (List.not_mem_nil c)
    · exact h

theorem mergeStepSpec_last {acc : List ClimbSegment} {lastC : ClimbSegment}
    (h : acc.getLast? = some lastC) (c : ClimbSegment) :
    mergeStepSpec acc c =
      if minDistanceBetweenClimbs ≤ c.startDistance - lastC.endDistance then
        acc ++ [c]
      else if lastC.score < c.score then acc.dropLast ++ [c]
      else acc := by
  rw [mergeStepSpec, h]

theorem mergeLoop_eq_foldl :
    ∀ rest acc, mergeLoop acc rest = List.foldl mergeStepSpec acc.reverse rest := by
  intro rest
  induction rest with
  | nil => intro acc; rfl
  | cons cur rest' ih =>
    intro acc
    cases acc with
    | nil =>
      show mergeLoop [cur] rest' = List.foldl mergeStepSpec (mergeStepSpec [] cur) rest'
      rw [ih [cur]]
      rfl
    | cons lastC accTail =>
      have hlast : ((lastC :: accTail).reverse).getLast? = some lastC := by
        rw [List.reverse_cons]
        exact List.getLast?_concat _
      show _ = List.foldl mergeStepSpec
        (mergeStepSpec ((lastC :: accTail).reverse) cur) rest'
      simp only [mergeLoop]
      by_cases h1 : cur.startDistance - lastC.endDistance <
          minDistanceBetweenClimbs
      · rw [if_pos h1]
        by_cases h2 : lastC.score < cur.score
        · rw [if_pos h2, ih]
          congr 1
          rw [mergeStepSpec_last hlast]
          rw [if_neg (by exact not_le.2 h1), if_pos h2]
          rw [List.reverse_cons, List.reverse_cons, List.dropLast_concat]
        · rw [if_neg h2, ih]
          congr 1
          rw [mergeStepSpec_last hlast]
          rw [if_neg (by exact not_le.2 h1), if_neg h2]
      · rw [if_neg h1, ih]
        congr 1
        rw [mergeStepSpec_last hlast]
        rw [if_pos (not_lt.1 h1)]
        rw [List.reverse_cons]

/-- C2: the merger is exactly the left-to-right single-accumulator fold the
spec describes: append when the accumulator is empty or the gap to the last
kept segment is at least 2 km, otherwise replace the last kept segment iff
the candidate's score is strictly greater, else drop the candidate; no
earlier kept segment is ever re-examined (`mergeStepSpec` reads only
`getLast?`). -/
theorem mergeNearbyClimbs_eq_mergeSpec (climbs : List ClimbSegment) :
    mergeNearbyClimbs climbs = mergeSpec climbs := by
  unfold mergeNearbyClimbs mergeSpec
  split
  · rename_i hlen
    match climbs with
    | [] => rfl
    | [c] => rw [List.foldl_cons, List.foldl_nil]; rfl
    | a :: b :: t => simp at hlen
  · rw [mergeLoop_eq_foldl]
    rfl

/-! ## The gap invariant of merged output, and idempotence -/

theorem mergeLoop_gap :
    ∀ rest acc,
      List.Pairwise (fun a b => a.startDistance ≤ b.startDistance) rest →
      List.Chain' (fun a b =>
        minDistanceBetweenClimbs ≤ a.startDistance - b.endDistance) acc →
      (∀ hd, acc.head? = some hd →
        ∀ y ∈ rest, hd.startDistance ≤ y.startDistance) →
      List.Chain' (fun a b =>
        minDistanceBetweenClimbs ≤ b.startDistance - a.endDistance)
        (mergeLoop acc rest) := by
  intro rest
  induction rest with
  | nil =>
    intro acc _ hacc _
    simp only [mergeLoop]
    rw [List.chain'_reverse]
    exact hacc
  | cons cur rest' ih =>
    intro acc hsorted hacc hhd
    have hsorted' : List.Pairwise
        (fun a b => a.startDistance ≤ b.startDistance) rest' :=
      hsorted.of_cons
    have hcur : ∀ y ∈ rest', cur.startDistance ≤ y.startDistance :=
      (List.pairwise_cons.1 hsorted).1
    cases acc with
    | nil =>
      simp only [mergeLoop]
      refine ih [cur] hsorted' (List.chain'_singleton _) ?_
      intro hd hhd' y hy
      rcases Option.some_inj.1 hhd' with rfl
      exact hcur y hy
    | cons lastC accTail =>
      have hle : lastC.startDistance ≤ cur.startDistance :=
        hhd lastC rfl cur (List.mem_cons_self ..)
      simp only [mergeLoop]
      split
      · split
        · -- replace the last kept segment by `cur`
          refine ih (cur :: accTail) hsorted' ?_ ?_
          · cases accTail with
            | nil => exact List.chain'_singleton _
            | cons p t =>
              rw [List.chain'_cons] at hacc ⊢
              exact ⟨by have := hacc.1; linarith, hacc.2⟩
          · intro hd hhd' y hy
            rcases Option.some_inj.1 hhd' with rfl
            exact hcur y hy
        · -- drop `cur`
          refine ih (lastC :: accTail) hsorted' hacc ?_
          intro hd hhd' y hy
          rcases Option.some_inj.1 hhd' with rfl
          have := hcur y hy
          linarith
      · -- append `cur`
        rename_i hgap
        refine ih (cur :: lastC :: accTail) hsorted' ?_ ?_
        · rw [List.chain'_cons]
          exact ⟨not_lt.1 hgap, hacc⟩
        · intro hd hhd' y hy
          rcases Option.some_inj.1 hhd' with rfl
          exact hcur y hy

theorem mergeNearbyClimbs_gap {l : List ClimbSegment}
    (h : List.Pairwise (fun a b => a.startDistance ≤ b.startDistance) l) :
    List.Chain' (fun a b =>
      minDistanceBetweenClimbs ≤ b.startDistance - a.endDistance)
      (mergeNearbyClimbs l) := by
  unfold mergeNearbyClimbs
  split
  · rename_i hlen
    match l with
    | [] => exact List.chain'_nil
    | [c] => exact List.chain'_singleton _
    | a :: b :: t => simp at hlen
  · exact mergeLoop_gap l [] h List.chain'_nil (by intro hd hhd; cases hhd)

theorem mergeLoop_fixed :
    ∀ rest (a : ClimbSegment) tl,
      List.Chain' (fun a b =>
        minDistanceBetweenClimbs ≤ b.startDistance - a.endDistance)
        (a :: rest) →
      mergeLoop (a :: tl) rest = (a :: tl).reverse ++ rest := by
  intro rest
  induction rest with
  | nil => intro a tl _; simp [mergeLoop]
  | cons c cs ih =>
    intro a tl hchain
    rw [List.chain'_cons] at hchain
    simp only [mergeLoop]
    rw [if_neg (not_lt.2 hchain.1)]
    rw [ih c (a :: tl) hchain.2]
    simp

theorem mergeNearbyClimbs_fixed {l : List ClimbSegment}
    (h : List.Chain' (fun a b =>
      minDistanceBetweenClimbs ≤ b.startDistance - a.endDistance) l) :
    mergeNearbyClimbs l = l := by
  unfold mergeNearbyClimbs
  split
  · rfl
  · match l with
    | [] => rfl
    | a :: rest =>
      show mergeLoop [a] rest = a :: rest
      rw [mergeLoop_fixed rest a [] h]
      rfl

/-- C5: on any candidate list that is ordered by `startDistance` (as the
segmenter's output always is), the merger is idempotent. -/
theorem mergeNearbyClimbs_idempotent (climbs : List ClimbSegment)
    (h : SortedByStart climbs) :
    mergeNearbyClimbs (mergeNearbyClimbs climbs) = mergeNearbyClimbs climbs :=
  mergeNearbyClimbs_fixed (mergeNearbyClimbs_gap h)

/-! ## Peak refinement as a window scan -/

theorem peakLoop_eq_scan (pts : List Point) (stop : Nat)
    (hstop : stop ≤ pts.length) :
    ∀ fuel j pd pe, stop - j ≤ fuel →
      peakLoop pts stop fuel j pd pe =
        peakScanSpec ((pts.drop j).take (stop - j)) (pd, pe) := by
  intro fuel
  induction fuel with
  | zero =>
    intro j pd pe hf
    rw [Nat.sub_eq_zero_of_le (by omega), List.take_zero]
    rfl
  | succ fuel ih =>
    intro j pd pe hf
    by_cases hj : j < stop
    · have hlen : j < pts.length := lt_of_lt_of_le hj hstop
      have hwin : (pts.drop j).take (stop - j) =
          getP pts j :: ((pts.drop (j + 1)).take (stop - (j + 1))) := by
        rw [List.drop_eq_getElem_cons hlen]
        have hsj : stop - j = (stop - (j + 1)) + 1 := by omega
        rw [hsj, List.take_succ_cons, getP_eq_getElem hlen]
      rw [hwin]
      simp only [peakLoop, if_pos hj, peakScanSpec]
      split
      · exact ih (j + 1) _ _ (by omega)
      · split
        · rfl
        · exact ih (j + 1) _ _ (by omega)
    · rw [Nat.sub_eq_zero_of_le (le_of_not_lt hj), List.take_zero]
      simp only [peakLoop, if_neg hj]
      rfl

/-- C6: peak refinement for a climb closed at index `i` is exactly the
spec's bounded forward scan: it processes, in order, the at most 20 points
starting at the closing index (so at most 19, in particular at most 20,
additional points beyond the closing index), tracking the running maximum
elevation with its distance and stopping as soon as a point drops more
than 10 m below the running maximum. -/
theorem refinePeak_eq_peakScanSpec (pts : List Point) (i : Nat) (pd pe : ℚ) :
    refinePeak pts i pd pe = peakScanSpec ((pts.drop i).take 20) (pd, pe) ∧
    ((pts.drop i).take 20).length ≤ 20 := by
  constructor
  · rw [refinePeak,
      peakLoop_eq_scan pts _ (min_le_right _ _) 20 i pd pe (by omega)]
    have hw : (pts.drop i).take (min (i + 20) pts.length - i) =
        (pts.drop i).take 20 := by
      by_cases h : i + 20 ≤ pts.length
      · congr 1
        rw [min_eq_left h]
        omega
      · rw [min_eq_right (le_of_not_le h)]
        have h1 : (pts.drop i).length = pts.length - i := List.length_drop ..
        rw [List.take_of_length_le (by omega),
          List.take_of_length_le (by omega)]
    rw [hw]
  · rw [List.length_take]
    exact min_le_left ..

/-! ## Emitted-segment characterisation -/

theorem closeSegment_some {pts : List Point} {i : Nat} {cs cse : ℚ}
    {s : ClimbSegment} (h : closeSegment pts i cs cse = some s) :
    s.startDistance = cs ∧
    s.endDistance = (getP pts i).distance ∧
    s.endElevation = (getP pts i).elevation ∧
    s.startElevation = cse ∧
    s.length = (getP pts i).distance - cs ∧
    s.elevationGain = (getP pts i).elevation - cse ∧
    s.averageGradient = s.elevationGain / (s.length * 1000) * 100 ∧
    s.score = s.length * (s.averageGradient * s.averageGradient) ∧
    s.category = categorizeClimb s.score ∧
    minClimbLength ≤ s.length ∧
    minElevationGain ≤ s.elevationGain ∧
    gradientThreshold ≤ s.averageGradient ∧
    (s.peakDistance, s.peakElevation) =
      refinePeak pts i s.endDistance s.endElevation := by
  simp only [closeSegment] at h
  split_ifs at h with h1 h2
  · rw [Option.some_inj] at h
    subst h
    exact ⟨rfl, rfl, rfl, rfl, rfl, rfl, rfl, rfl, rfl, h1.1, h1.2, h2, rfl⟩

theorem peakLoop_ge (pts : List Point) (stop : Nat) (b e : ℚ) :
    ∀ fuel j pd pe, b ≤ pd → e ≤ pe →
      (∀ k, j ≤ k → k < stop → b ≤ (getP pts k).distance) →
      b ≤ (peakLoop pts stop fuel j pd pe).1 ∧
      e ≤ (peakLoop pts stop fuel j pd pe).2 := by
  intro fuel
  induction fuel with
  | zero => intro j pd pe hb he _; exact ⟨hb, he⟩
  | succ fuel ih =>
    intro j pd pe hb he hk
    simp only [peakLoop]
    split
    · rename_i hj
      split
      · rename_i helev
        exact ih (j + 1) _ _ (hk j le_rfl hj)
          (le_of_lt (lt_of_le_of_lt he helev))
          (fun k h1 h2 => hk k (by omega) h2)
      · split
        · exact ⟨hb, he⟩
        · exact ih (j + 1) _ _ hb he (fun k h1 h2 => hk k (by omega) h2)
    · exact ⟨hb, he⟩

theorem peakLoop_mem (pts : List Point) (stop : Nat) :
    ∀ fuel j pd pe,
      (peakLoop pts stop fuel j pd pe).1 = pd ∨
      ∃ k, k < stop ∧
        (peakLoop pts stop fuel j pd pe).1 = (getP pts k).distance := by
  intro fuel
  induction fuel with
  | zero => intro j pd pe; exact Or.inl rfl
  | succ fuel ih =>
    intro j pd pe
    simp only [peakLoop]
    split
    · rename_i hj
      split
      · rcases ih (j + 1) (getP pts j).distance (getP pts j).elevation with
          h | ⟨k, hk, h⟩
        · exact Or.inr ⟨j, hj, h⟩
        · exact Or.inr ⟨k, hk, h⟩
      · split
        · exact Or.inl rfl
        · exact ih (j + 1) pd pe
    · exact Or.inl rfl

theorem closeSegment_peak {pts : List Point} (hm : DistMono pts) {i : Nat}
    {cs cse : ℚ} {s : ClimbSegment}
    (h : closeSegment pts i cs cse = some s) :
    s.endElevation ≤ s.peakElevation ∧ s.endDistance ≤ s.peakDistance ∧
    (s.peakDistance = s.endDistance ∨
      ∃ k, k < pts.length ∧ s.peakDistance = (getP pts k).distance) := by
  obtain ⟨-, hend, -, -, -, -, -, -, -, -, -, -, hpk⟩ := closeSegment_some h
  have hpd : s.peakDistance =
      (refinePeak pts i s.endDistance s.endElevation).1 := by rw [← hpk]
  have hpe : s.peakElevation =
      (refinePeak pts i s.endDistance s.endElevation).2 := by rw [← hpk]
  rw [refinePeak] at hpd hpe
  have hge := peakLoop_ge pts (min (i + 20) pts.length) s.endDistance
    s.endElevation 20 i s.endDistance s.endElevation le_rfl le_rfl
    (by
      intro k h1 h2
      rw [hend]
      exact distMono_le hm h1 (lt_of_lt_of_le h2 (min_le_right _ _)))
  refine ⟨?_, ?_, ?_⟩
  · rw [hpe]
    exact hge.2
  · rw [hpd]
    exact hge.1
  · rcases peakLoop_mem pts (min (i + 20) pts.length) 20 i s.endDistance
      s.endElevation with h' | ⟨k, hk, h'⟩
    · exact Or.inl (by rw [hpd, h'])
    · exact Or.inr ⟨k, lt_of_lt_of_le hk (min_le_right _ _), by rw [hpd, h']⟩

/-! ## The main scan: preservation of emitted-segment properties -/

theorem detectStep_climbs (pts : List Point) (i : Nat) (st : DetectState) :
    (detectStep pts i st).climbs = st.climbs ∨
    ∃ cs cse s, st.climbStart = some cs ∧ st.climbStartElevation = some cse ∧
      closeSegment pts i cs cse = some s ∧
      (detectStep pts i st).climbs = st.climbs ++ [s] := by
  by_cases h1 : st.isClimbing = false ∧ gradientThreshold < pairGradient pts i
  · left
    simp only [detectStep]
    rw [if_pos h1]
  · by_cases h2 : st.isClimbing = true ∧
        (pairGradient pts i < gradientThreshold ∨ i = pts.length - 1)
    · cases hcs : st.climbStart with
      | none =>
        left
        simp only [detectStep]
        rw [if_neg h1, if_pos h2, hcs]
        simp
      | some cs =>
        cases hcse : st.climbStartElevation with
        | none =>
          left
          simp only [detectStep]
          rw [if_neg h1, if_pos h2, hcs, hcse]
          simp
        | some cse =>
          cases hclose : closeSegment pts i cs cse with
          | none =>
            left
            simp only [detectStep]
            rw [if_neg h1, if_pos h2, hcs, hcse]
            simp [hclose]
          | some s =>
            refine Or.inr ⟨cs, cse, s, rfl, rfl, hclose, ?_⟩
            simp only [detectStep]
            rw [if_neg h1, if_pos h2, hcs, hcse]
            simp [hclose]
    · left
      simp only [detectStep]
      rw [if_neg h1, if_neg h2]

theorem detectLoop_preserve (pts : List Point) (P : ClimbSegment → Prop)
    (hstep : ∀ i cs cse s, closeSegment pts i cs cse = some s → P s) :
    ∀ fuel i st, (∀ c ∈ st.climbs, P c) →
      ∀ c ∈ detectLoop pts fuel i st, P c := by
  intro fuel
  induction fuel with
  | zero => intro i st h c hc; exact h c hc
  | succ fuel ih =>
    intro i st h c hc
    simp only [detectLoop] at hc
    split at hc
    · refine ih (i + 1) _ ?_ c hc
      intro d hd
      rcases detectStep_climbs pts i st with heq | ⟨cs, cse, s, _, _, hclose, heq⟩
      · rw [heq] at hd
        exact h d hd
      · rw [heq] at hd
        rcases List.mem_append.1 hd with hd | hd
        · exact h d hd
        · rcases List.mem_singleton.1 hd with rfl
          exact hstep i cs cse d hclose
    · exact h c hc

theorem detectClimbs_forall {pts : List Point} (P : ClimbSegment → Prop)
    (hstep : ∀ i cs cse s,
      closeSegment (smoothElevationForClimbDetection pts) i cs cse = some s →
      P s) :
    ∀ s ∈ detectClimbs pts, P s := by
  intro s hs
  simp only [detectClimbs] at hs
  split at hs
  · cases hs
  · exact detectLoop_preserve _ P hstep _ 1 ⟨[], none, none, false⟩
      (by intro c hc; cases hc) s (mergeNearbyClimbs_subset _ s hs)

/-- C1: every segment returned by `detectClimbs` satisfies all three
validity gates: length at least 0.5 km, elevation gain at least 30 m, and
average gradient at least 3 percent (this holds for every input, in
particular for every valid one). -/
theorem detectClimbs_validity_gates (pts : List Point) :
    (detectClimbs pts).Forall fun s =>
      (1/2 : ℚ) ≤ s.length ∧ (30 : ℚ) ≤ s.elevationGain ∧
      (3 : ℚ) ≤ s.averageGradient := by
  rw [List.forall_iff_forall_mem]
  exact detectClimbs_forall _ (fun i cs cse t ht => by
    obtain ⟨-, -, -, -, -, -, -, -, -, g1, g2, g3, -⟩ := closeSegment_some ht
    exact ⟨g1, g2, g3⟩)

/-- C4: `categorizeClimb` is the fixed-breakpoint function of the score
alone (`≥600 → HC`, `≥300 → 1`, `≥150 → 2`, `≥75 → 3`, `>0 → 4`, else
none); in particular 600 maps to HC, 299.9 maps to 2 and 0 maps to none;
and every returned segment's category is `categorizeClimb` of its score,
with score = length times squared average gradient. -/
theorem categorizeClimb_breakpoints :
    (∀ q : ℚ, 600 ≤ q → categorizeClimb q = some Category.hc) ∧
    (∀ q : ℚ, 300 ≤ q → q < 600 → categorizeClimb q = some Category.cat1) ∧
    (∀ q : ℚ, 150 ≤ q → q < 300 → categorizeClimb q = some Category.cat2) ∧
    (∀ q : ℚ, 75 ≤ q → q < 150 → categorizeClimb q = some Category.cat3) ∧
    (∀ q : ℚ, 0 < q → q < 75 → categorizeClimb q = some Category.cat4) ∧
    (∀ q : ℚ, q ≤ 0 → categorizeClimb q = none) ∧
    categorizeClimb 600 = some Category.hc ∧
    categorizeClimb (2999/10) = some Category.cat2 ∧
    categorizeClimb 0 = none ∧
    (∀ pts : List Point, (detectClimbs pts).Forall fun s =>
      s.category = categorizeClimb s.score ∧
      s.score = s.length * (s.averageGradient * s.averageGradient)) := by
  refine ⟨?_, ?_, ?_, ?_, ?_, ?_, ?_, ?_, ?_, ?_⟩
  · intro q hq
    rw [categorizeClimb, if_pos hq]
  · intro q h1 h2
    rw [categorizeClimb, if_neg (by linarith), if_pos h1]
  · intro q h1 h2
    rw [categorizeClimb, if_neg (by linarith), if_neg (by linarith),
      if_pos h1]
  · intro q h1 h2
    rw [categorizeClimb, if_neg (by linarith), if_neg (by linarith),
      if_neg (by linarith), if_pos h1]
  · intro q h1 h2
    rw [categorizeClimb, if_neg (by linarith), if_neg (by linarith),
      if_neg (by linarith), if_neg (by linarith), if_pos h1]
  · intro q h1
    rw [categorizeClimb, if_neg (by linarith), if_neg (by linarith),
      if_neg (by linarith), if_neg (by linarith), if_neg (by linarith)]
  · norm_num [categorizeClimb]
  · norm_num [categorizeClimb]
  · norm_num [categorizeClimb]
  · intro pts
    rw [List.forall_iff_forall_mem]
    exact detectClimbs_forall _ (fun i cs cse t ht => by
      obtain ⟨-, -, -, -, -, -, -, hscore, hcat, -, -, -, -⟩ :=
        closeSegment_some ht
      exact ⟨hcat, hscore⟩)

/-! ## No steep pair means no climbs -/

theorem detectLoop_noSteep (pts : List Point)
    (hg : ∀ k, k < pts.length → 1 ≤ k →
      pairGradient pts k ≤ gradientThreshold) :
    ∀ fuel i st, 1 ≤ i → st.isClimbing = false →
      detectLoop pts fuel i st = st.climbs := by
  intro fuel
  induction fuel with
  | zero => intro i st _ _; rfl
  | succ fuel ih =>
    intro i st hi hcl
    simp only [detectLoop]
    split
    · rename_i hlt
      have hstep : detectStep pts i st = st := by
        simp only [detectStep]
        rw [if_neg, if_neg]
        · intro hcon
          rw [hcl] at hcon
          exact absurd hcon.1 (by decide)
        · intro hcon
          exact absurd hcon.2 (not_lt.2 (hg i hlt hi))
      rw [hstep]
      exact ih (i + 1) st (by omega) hcl
    · rfl

/-- C9: if after smoothing no consecutive pair of points has per-pair
gradient exceeding the 3-percent threshold (a pair with non-positive
distance delta counting as gradient 0), `detectClimbs` returns the empty
list. -/
theorem detectClimbs_noSteep_empty (pts : List Point)
    (h : NoSteep (smoothElevationForClimbDetection pts)) :
    detectClimbs pts = [] := by
  simp only [detectClimbs]
  split
  · rfl
  · rw [detectLoop_noSteep _ (fun k hk h1 => h k (List.mem_range.2 hk) h1)
      _ 1 ⟨[], none, none, false⟩ le_rfl rfl]
    rfl

/-! ## The ordering invariant of the main scan -/

theorem detectStep_ord {pts : List Point} (hm : DistMono pts) {i : Nat}
    (hlt : i < pts.length) {st : DetectState} (h : OrdInv pts i st) :
    OrdInv pts (i + 1) (detectStep pts i st) := by
  obtain ⟨hchain, hbound, hcs, hnone⟩ := h
  have hmono : (getP pts (i - 1)).distance ≤ (getP pts i).distance :=
    distMono_le hm (by omega) hlt
  have hi1 : i + 1 - 1 = i := by omega
  by_cases h1 : st.isClimbing = false ∧ gradientThreshold < pairGradient pts i
  · -- opening a climb
    have h0 : st.climbStart = none := hnone h1.1
    have hst : detectStep pts i st = { st with
        climbStart := some (getP pts (i - 1)).distance
        climbStartElevation := some (getP pts (i - 1)).elevation
        isClimbing := true } := by
      simp only [detectStep]
      rw [if_pos h1]
    rw [hst]
    refine ⟨hchain, ?_, ?_, ?_⟩
    · intro c hc
      have hb := hbound c hc
      simp only [stBound, h0, Option.getD_none] at hb
      simp only [stBound, Option.getD_some]
      exact hb
    · intro cs' hcs'
      simp only [Option.some_inj] at hcs'
      rw [← hcs', hi1]
      exact hmono
    · intro hfalse
      simp at hfalse
  · by_cases h2 : st.isClimbing = true ∧
        (pairGradient pts i < gradientThreshold ∨ i = pts.length - 1)
    · -- closing a climb
      have hrest : (detectStep pts i st).climbStart = none ∧
          (detectStep pts i st).isClimbing = false := by
        simp only [detectStep]
        rw [if_neg h1, if_pos h2]
        exact ⟨rfl, rfl⟩
      have hBle : stBound pts i st ≤ (getP pts i).distance := by
        cases hcs0 : st.climbStart with
        | some cs0 =>
          simp only [stBound, hcs0, Option.getD_some]
          exact le_trans (hcs cs0 hcs0) hmono
        | none =>
          simp only [stBound, hcs0, Option.getD_none]
          exact hmono
      have hbound' : ∀ c ∈ st.climbs,
          c.endDistance ≤ (getP pts i).distance :=
        fun c hc => le_trans (hbound c hc) hBle
      have hBnew : stBound pts (i + 1) (detectStep pts i st) =
          (getP pts i).distance := by
        simp only [stBound, hrest.1, Option.getD_none, hi1]
      refine ⟨?_, ?_, ?_, fun _ => hrest.1⟩
      · rcases detectStep_climbs pts i st with heq |
          ⟨cs0, cse0, s, hcs0, hcse0, hclose, heq⟩
        · rw [heq]
          exact hchain
        · rw [heq, List.chain'_append]
          refine ⟨hchain, List.chain'_singleton _, ?_⟩
          intro x hx y hy
          rw [Option.mem_def] at hx hy
          rw [List.head?_cons, Option.some_inj] at hy
          subst hy
          obtain ⟨hsstart, -, -, -, -, -, -, -, -, -, -, -, -⟩ :=
            closeSegment_some hclose
          have hxb := hbound x (List.mem_of_getLast?_eq_some hx)
          simp only [stBound, hcs0, Option.getD_some] at hxb
          rw [hsstart]
          exact hxb
      · intro c hc
        rw [hBnew]
        rcases detectStep_climbs pts i st with heq |
          ⟨cs0, cse0, s, hcs0, hcse0, hclose, heq⟩
        · rw [heq] at hc
          exact hbound' c hc
        · rw [heq] at hc
          rcases List.mem_append.1 hc with hc | hc
          · exact hbound' c hc
          · rcases List.mem_singleton.1 hc with rfl
            obtain ⟨-, hsend, -, -, -, -, -, -, -, -, -, -, -⟩ :=
              closeSegment_some hclose
            rw [hsend]
      · intro cs' hcs'
        rw [hrest.1] at hcs'
        cases hcs'
    · -- no transition
      have hst : detectStep pts i st = st := by
        simp only [detectStep]
        rw [if_neg h1, if_neg h2]
      rw [hst]
      refine ⟨hchain, ?_, ?_, hnone⟩
      · intro c hc
        have hb := hbound c hc
        cases hcs0 : st.climbStart with
        | some cs0 =>
          simp only [stBound, hcs0, Option.getD_some] at hb ⊢
          exact hb
        | none =>
          simp only [stBound, hcs0, Option.getD_none] at hb ⊢
          rw [hi1]
          exact le_trans hb hmono
      · intro cs' hcs'
        rw [hi1]
        exact le_trans (hcs cs' hcs') hmono

theorem detectLoop_ord {pts : List Point} (hm : DistMono pts) :
    ∀ fuel i st, OrdInv pts i st →
      List.Chain' (fun a b => a.endDistance ≤ b.startDistance)
        (detectLoop pts fuel i st) := by
  intro fuel
  induction fuel with
  | zero => intro i st h; exact h.1
  | succ fuel ih =>
    intro i st h
    simp only [detectLoop]
    split
    · rename_i hlt
      exact ih (i + 1) _ (detectStep_ord hm hlt h)
    · exact h.1

theorem chain'_imp_mem {α : Type} {R S : α → α → Prop} {P : α → Prop} :
    ∀ l : List α, (∀ c ∈ l, P c) → List.Chain' R l →
      (∀ a b, P a → P b → R a b → S a b) → List.Chain' S l := by
  intro l
  induction l with
  | nil => intro _ _ _; exact List.chain'_nil
  | cons a t ih =>
    intro hP hc himp
    cases t with
    | nil => exact List.chain'_singleton a
    | cons b t' =>
      rw [List.chain'_cons] at hc ⊢
      refine ⟨himp a b (hP a (by simp)) (hP b (by simp)) hc.1, ?_⟩
      exact ih (fun c hc' => hP c (List.mem_cons_of_mem _ hc')) hc.2 himp

/-- C3: for inputs with non-decreasing distances, the returned segments are
strictly ordered by `startDistance` and every consecutive pair is at least
2 km apart (`startDistance` of the next minus `endDistance` of the
previous); in particular there is not even one pair closer than 2 km. -/
theorem detectClimbs_ordered_and_spaced (pts : List Point)
    (hm : DistMono pts) :
    List.Pairwise (fun a b => a.startDistance < b.startDistance)
      (detectClimbs pts) ∧
    List.Chain' (fun a b =>
      minDistanceBetweenClimbs ≤ b.startDistance - a.endDistance)
      (detectClimbs pts) := by
  haveI htrans : IsTrans ClimbSegment
      (fun a b => a.startDistance < b.startDistance) :=
    ⟨fun a b c hab hbc => lt_trans hab hbc⟩
  by_cases hlen : pts.length < 10
  · rw [detectClimbs_short_input pts hlen]
    exact ⟨List.Pairwise.nil, List.chain'_nil⟩
  · have hm' := distMono_smooth hm
    have hout : detectClimbs pts =
        mergeNearbyClimbs (detectLoop (smoothElevationForClimbDetection pts)
          (smoothElevationForClimbDetection pts).length 1
          ⟨[], none, none, false⟩) := by
      simp only [detectClimbs]
      rw [if_neg hlen]
    set spts := smoothElevationForClimbDetection pts with hspts
    set cands := detectLoop spts spts.length 1 ⟨[], none, none, false⟩
      with hcands
    have hPall : ∀ c ∈ cands, minClimbLength ≤ c.length ∧
        c.length = c.endDistance - c.startDistance := by
      rw [hcands]
      exact detectLoop_preserve spts _ (fun i cs cse t ht => by
        obtain ⟨hst, hend, -, -, hlen', -, -, -, -, g1, -, -, -⟩ :=
          closeSegment_some ht
        exact ⟨g1, by rw [hlen', hst, hend]⟩) spts.length 1 _
        (by intro c hc; cases hc)
    have hchain : List.Chain' (fun a b => a.endDistance ≤ b.startDistance)
        cands := by
      rw [hcands]
      exact detectLoop_ord hm' spts.length 1 _
        ⟨List.chain'_nil, (by intro c hc; cases hc),
          (by intro cs h'; cases h'), fun _ => rfl⟩
    have hlt : List.Chain' (fun a b => a.startDistance < b.startDistance)
        cands :=
      chain'_imp_mem cands hPall hchain (fun a b ha _ hr => by
        have h12 : minClimbLength = 1/2 := rfl
        have ha1 := ha.1
        have ha2 := ha.2
        linarith)
    have hsorted : List.Pairwise
        (fun a b => a.startDistance ≤ b.startDistance) cands :=
      (List.chain'_iff_pairwise.1 hlt).imp le_of_lt
    have hgap := mergeNearbyClimbs_gap hsorted
    have hPall' : ∀ c ∈ mergeNearbyClimbs cands,
        minClimbLength ≤ c.length ∧
        c.length = c.endDistance - c.startDistance :=
      fun c hc => hPall c (mergeNearbyClimbs_subset cands c hc)
    have hlt' : List.Chain' (fun a b => a.startDistance < b.startDistance)
        (mergeNearbyClimbs cands) :=
      chain'_imp_mem _ hPall' hgap (fun a b ha _ hr => by
        have h12 : minClimbLength = 1/2 := rfl
        have h2' : minDistanceBetweenClimbs = 2 := rfl
        have ha1 := ha.1
        have ha2 := ha.2
        linarith)
    rw [hout]
    exact ⟨List.chain'_iff_pairwise.1 hlt', hgap⟩

/-- C10: for inputs with non-decreasing distances, peak refinement never
lowers the recorded peak below the segment's nominal end: every returned
segment has `peakElevation ≥ endElevation` and `peakDistance ≥
endDistance`, and the peak location is the nominal end or some input
sample's distance. -/
theorem detectClimbs_peak_ge_end (pts : List Point) (hm : DistMono pts) :
    (detectClimbs pts).Forall fun s =>
      s.endElevation ≤ s.peakElevation ∧ s.endDistance ≤ s.peakDistance ∧
      (s.peakDistance = s.endDistance ∨
        ∃ p ∈ pts, s.peakDistance = p.distance) := by
  rw [List.forall_iff_forall_mem]
  intro s hs
  have hm' := distMono_smooth hm
  have h := detectClimbs_forall (fun s =>
    s.endElevation ≤ s.peakElevation ∧ s.endDistance ≤ s.peakDistance ∧
    (s.peakDistance = s.endDistance ∨
      ∃ k, k < (smoothElevationForClimbDetection pts).length ∧
        s.peakDistance =
          (getP (smoothElevationForClimbDetection pts) k).distance))
    (fun i cs cse t ht => closeSegment_peak hm' ht) s hs
  refine ⟨h.1, h.2.1, ?_⟩
  rcases h.2.2 with h' | ⟨k, hk, h'⟩
  · exact Or.inl h'
  · rw [smooth_length] at hk
    rw [smooth_distance] at h'
    exact Or.inr ⟨getP pts k, getP_mem hk, h'⟩

/-! ## Concrete-input witnesses

The arithmetic operations on `Rat` are `@[irreducible]` in the library,
which blocks only the elaborator's evaluation, not the kernel's; they are
made semireducible locally so that `decide` can evaluate the pipeline on
concrete inputs. -/

section Witnesses

set_option allowUnsafeReducibility true

attribute [local semireducible] Rat.add Rat.sub Rat.mul Rat.inv

/-- The pipeline on a concrete single climb returns exactly one segment
covering it (non-vacuity of the detection theorems). -/
theorem detectClimbs_climbTrack_single :
    (detectClimbs climbTrack).length = 1 := by decide

/-- Witness for `detectClimbs_noSteep_empty`: the concrete flat 20 km
track never exceeds the gradient threshold after smoothing, and the
detector returns the empty list on it. -/
theorem detectClimbs_noSteep_empty_witness :
    NoSteep (smoothElevationForClimbDetection flatTrack) ∧
      detectClimbs flatTrack = [] :=
  ⟨by decide, detectClimbs_noSteep_empty flatTrack (by decide)⟩

/-- Witness for `detectClimbs_ordered_and_spaced` at the concrete flat
track, whose distances are non-decreasing. -/
theorem detectClimbs_ordered_and_spaced_witness :
    DistMono flatTrack ∧
      (List.Pairwise (fun a b => a.startDistance < b.startDistance)
          (detectClimbs flatTrack) ∧
        List.Chain' (fun a b =>
          minDistanceBetweenClimbs ≤ b.startDistance - a.endDistance)
          (detectClimbs flatTrack)) :=
  ⟨by decide, detectClimbs_ordered_and_spaced flatTrack (by decide)⟩

/-- Witness for `detectClimbs_peak_ge_end` at the concrete flat track. -/
theorem detectClimbs_peak_ge_end_witness :
    DistMono flatTrack ∧
      (detectClimbs flatTrack).Forall (fun s =>
        s.endElevation ≤ s.peakElevation ∧
        s.endDistance ≤ s.peakDistance ∧
        (s.peakDistance = s.endDistance ∨
          ∃ p ∈ flatTrack, s.peakDistance = p.distance)) :=
  ⟨by decide, detectClimbs_peak_ge_end flatTrack (by decide)⟩

/-- Witness for `mergeNearbyClimbs_idempotent` at a concrete sorted
two-candidate list. -/
theorem mergeNearbyClimbs_idempotent_witness :
    SortedByStart [segA, segB] ∧
      mergeNearbyClimbs (mergeNearbyClimbs [segA, segB]) =
        mergeNearbyClimbs [segA, segB] :=
  ⟨by decide, mergeNearbyClimbs_idempotent [segA, segB] (by decide)⟩

/-- Witness for `categorizeClimb_breakpoints` at a concrete score. -/
theorem categorizeClimb_breakpoints_witness :
    (600 : ℚ) ≤ 700 ∧ categorizeClimb 700 = some Category.hc :=
  ⟨by norm_num, categorizeClimb_breakpoints.1 700 (by norm_num)⟩

end Witnesses

end TdfProfile
